import Mathlib

/-!
Verification of the availability solver and slot ranker of the `interpawsdemo`
veterinary-clinic booking service.

The development shallowly embeds `backend/scheduler/solver.py`
(`find_available_slots` together with its `AllSolutionsCallback`) and
`backend/scheduler/ranker.py` (`rank_slots_with_llm`).

Embedding conventions:
* wall-clock times are minutes from midnight as `Nat` (the Python code derives
  them as `t.hour * 60 + t.minute`);
* a Python function that can raise an uncaught exception is modelled as
  returning `Option` (`none` = exception propagates to the caller);
* the CP-SAT model built by `find_available_slots` is embedded by its
  documented mathematical semantics: `AddNoOverlap` on a group of intervals
  requires all pairs of intervals in the group to be disjoint, intervals of
  size zero are ignored (they never conflict), a fixed interval of negative
  size makes the whole model invalid (`Solve` then reports `MODEL_INVALID`
  and enumerates no solution), and with `enumerate_all_solutions = True` the
  solver visits every satisfying assignment of the candidate literals.  The
  order in which CP-SAT visits solutions is solver-internal; the embedding
  `solveCollected` lists the records the callback accumulates in candidate
  creation order, which is faithful up to that (unspecified) first-occurrence
  order, and the theorem `mem_solveCollected_iff_solution` proves the list
  holds exactly the records arising from some satisfying assignment.
-/

/-- A row of the `vets` table: `Vet(id, name)` in `backend/api.py`. -/
structure Vet where
  id : Nat
  name : String
deriving DecidableEq, Repr

/-- A row of the `rooms` table: `Room(id, name)` in `backend/api.py`. -/
structure Room where
  id : Nat
  name : String
deriving DecidableEq, Repr

/-- An existing appointment, reduced to the fields `find_available_slots`
reads: `appt.id`, `appt.vet_id`, `appt.room_id` and the minute offsets
`appt.start_time.hour * 60 + appt.start_time.minute` (field `startMin`) and
`appt.end_time.hour * 60 + appt.end_time.minute` (field `endMin`). -/
structure Appointment where
  id : Nat
  vet_id : Nat
  room_id : Nat
  startMin : Nat
  endMin : Nat
deriving DecidableEq, Repr

/-- A calendar date, as consumed by `appointment_date.strftime('%Y-%m-%d')`. -/
structure DateD where
  year : Nat
  month : Nat
  day : Nat
deriving DecidableEq, Repr

/-- One slot dictionary as appended by `AllSolutionsCallback.on_solution_callback`. -/
structure Slot where
  vet_id : Nat
  vet_name : String
  room_id : Nat
  room_name : String
  date : String
  start_time : String
  end_time : String
deriving DecidableEq, Repr

/-- A candidate slot, i.e. the data `(v_id, r_id, start_min)` attached to one
optional interval / boolean literal of the CP-SAT model. -/
structure Candidate where
  v : Nat
  r : Nat
  s : Nat
deriving DecidableEq, Repr

/-- Zero-pad a numeral to two digits, as `strftime` does for `%H`, `%M`, `%m`, `%d`. -/
def pad2 (n : Nat) : String :=
  (if n < 10 then "0" else "") ++ toString n

/-- Zero-pad a year to four digits, as `strftime('%Y')` does. -/
def pad4 (n : Nat) : String :=
  (if n < 10 then "000" else if n < 100 then "00" else if n < 1000 then "0" else "") ++ toString n

/-- Embeds `time(hour=m // 60, minute=m % 60).strftime('%H:%M')`. -/
def fmtHHMM (m : Nat) : String :=
  pad2 (m / 60) ++ ":" ++ pad2 (m % 60)

/-- Embeds `appointment_date.strftime('%Y-%m-%d')`. -/
def fmtDate (d : DateD) : String :=
  pad4 d.year ++ "-" ++ pad2 d.month ++ "-" ++ pad2 d.day

/-- Working-day opening minute: `day_start_min = 9 * 60`. -/
def day_start_min : Nat := 9 * 60

/-- Working-day closing minute: `day_end_min = 17 * 60`. -/
def day_end_min : Nat := 17 * 60

/-- Hardcoded slot length: `appointment_duration = 30`. -/
def appointment_duration : Nat := 30

/-- Python `range(start, stop, step)` for positive `step`, as a `List Nat`. -/
def pyRange (start stop step : Nat) : List Nat :=
  List.range' start ((stop - start + step - 1) / step) step

/-- Embeds `possible_starts = range(day_start_min, day_end_min - appointment_duration + 1, 15)`. -/
def possible_starts : List Nat :=
  pyRange day_start_min (day_end_min - appointment_duration + 1) 15

/-- The list `potential_slots` built by the triple loop
`for start_min in possible_starts: for v_id in vet_ids: for r_id in room_ids`,
keeping the `(v_id, r_id, start_min)` data of each tuple. -/
def potential_slots (vet_ids room_ids : List Nat) : List Candidate :=
  possible_starts.flatMap fun s =>
    vet_ids.flatMap fun v =>
      room_ids.map fun r => ⟨v, r, s⟩

/-- Two half-open minute intervals `[s1, e1)` and `[s2, e2)` share an instant.
Intervals of zero (or negative, after the validity check) extent never overlap,
matching CP-SAT's treatment of zero-size intervals in `AddNoOverlap`. -/
def overlapsB (s1 e1 s2 e2 : Nat) : Bool :=
  max s1 s2 < min e1 e2

/-- The fixed busy intervals `vet_intervals[v]` receives for vet `v`
(before the optional candidate intervals are appended). -/
def vetFixed (v : Nat) (appts : List Appointment) : List (Nat × Nat) :=
  (appts.filter fun a => a.vet_id == v).map fun a => (a.startMin, a.endMin)

/-- The fixed busy intervals `room_intervals[r]` receives for room `r`. -/
def roomFixed (r : Nat) (appts : List Appointment) : List (Nat × Nat) :=
  (appts.filter fun a => a.room_id == r).map fun a => (a.startMin, a.endMin)

/-- Every pair of intervals drawn from the list is non-overlapping. -/
def pairwiseNoOvB : List (Nat × Nat) → Bool
  | [] => true
  | x :: xs => (xs.all fun y => !overlapsB x.1 x.2 y.1 y.2) && pairwiseNoOvB xs

/-- The fixed intervals alone satisfy every `AddNoOverlap` constraint: for each
vet and each room, its existing appointments are mutually disjoint.  When this
fails no assignment (not even the all-false one) satisfies the model, CP-SAT
reports `INFEASIBLE`, and the callback never runs. -/
def fixedConsistentB (vet_ids room_ids : List Nat) (appts : List Appointment) : Bool :=
  (vet_ids.all fun v => pairwiseNoOvB (vetFixed v appts)) &&
  (room_ids.all fun r => pairwiseNoOvB (roomFixed r appts))

/-- Candidate `c` conflicts with no fixed busy interval of its vet or its room,
i.e. the singleton selection `{c}` satisfies every no-overlap constraint as far
as fixed intervals are concerned. -/
def candFreeB (appts : List Appointment) (c : Candidate) : Bool :=
  appts.all fun a =>
    !(((a.vet_id == c.v) || (a.room_id == c.r)) &&
      overlapsB c.s (c.s + appointment_duration) a.startMin a.endMin)

/-- The dictionary built by `on_solution_callback` for a selected candidate. -/
def mkSlot (d : DateD) (c : Candidate) : Slot :=
  { vet_id := c.v
    vet_name := "Dr. Pawson " ++ toString c.v
    room_id := c.r
    room_name := "Exam Room " ++ toString c.r
    date := fmtDate d
    start_time := fmtHHMM c.s
    end_time := fmtHHMM (c.s + appointment_duration) }

/-- The record list `solution_callback.solutions` accumulated over the whole
enumeration, listed in candidate creation order (see the file comment; up to
CP-SAT's unspecified solution order this is the callback's output): empty when
some fixed interval has negative size (`MODEL_INVALID`) or when the fixed
intervals already violate a no-overlap constraint (`INFEASIBLE`), and otherwise
holding a record for precisely the candidates free of fixed conflicts, since
each such candidate is selected in some satisfying assignment
(`mem_solveCollected_iff_solution`). -/
def solveCollected (d : DateD) (vet_ids room_ids : List Nat)
    (appts : List Appointment) : List Slot :=
  if appts.any fun a => a.endMin < a.startMin then []
  else if fixedConsistentB vet_ids room_ids appts then
    ((potential_slots vet_ids room_ids).filter (candFreeB appts)).map (mkSlot d)
  else []

/-- The `(start_time, end_time)` pair used as dedup key (`slot_key` in the source). -/
def slotKey (x : Slot) : String × String :=
  (x.start_time, x.end_time)

/-- The dedup loop: walk `solutions`, keep a record iff its `(start_time,
end_time)` key is not in `seen_slots` yet, recording kept keys in `seen_slots`. -/
def dedupSlots : List Slot → List (String × String) → List Slot
  | [], _ => []
  | x :: xs, seen =>
    if slotKey x ∈ seen then dedupSlots xs seen
    else x :: dedupSlots xs (slotKey x :: seen)

/-- Code-point comparison of char lists: Python's `<=` on strings. -/
def charListLe : List Char → List Char → Bool
  | [], _ => true
  | _ :: _, [] => false
  | a :: as, b :: bs =>
    if a.toNat < b.toNat then true
    else if b.toNat < a.toNat then false
    else charListLe as bs

/-- The comparison `unique_solutions.sort(key=lambda x: x['start_time'])` sorts by. -/
def slotLeB (a b : Slot) : Bool :=
  charListLe a.start_time.data b.start_time.data

/-- The sort order as a decidable relation. -/
def slotLe (a b : Slot) : Prop :=
  slotLeB a b = true

instance : DecidableRel slotLe := fun a b => instDecidableEqBool (slotLeB a b) true

/-- Python's `list.sort` is a stable ascending sort; any stable sort computes
the same list, so the embedding uses stable insertion sort. -/
def sortSlots (l : List Slot) : List Slot :=
  l.insertionSort slotLe

/-- Embeds `find_available_slots(appointment_date, vets, rooms, existing_appointments)`
from `backend/scheduler/solver.py`.  `none` models an uncaught exception: the
booking loop executes `vet_intervals[appt.vet_id].append(...)` and
`room_intervals[appt.room_id].append(...)`, which raise `KeyError` when an
appointment references a vet or room id absent from the supplied lists (the
dictionaries are keyed by exactly `vet_ids` and `room_ids`). -/
def find_available_slots (appointment_date : DateD) (vets : List Vet)
    (rooms : List Room) (existing_appointments : List Appointment) :
    Option (List Slot) :=
  let vet_ids := vets.map Vet.id
  let room_ids := rooms.map Room.id
  if existing_appointments.all fun a =>
      vet_ids.contains a.vet_id && room_ids.contains a.room_id then
    some (sortSlots
      (dedupSlots (solveCollected appointment_date vet_ids room_ids existing_appointments) []))
  else
    none

/-!
### The ranker, `backend/scheduler/ranker.py`

`rank_slots_with_llm(feasible_slots, reason_for_visit)` posts a prompt to a
local LLM and post-processes the reply.  The network and the two JSON layers
(`response.json()` and `json.loads(response_text)`) are the input boundary of
the pure logic; they are embedded as an `LLMReply` value describing how far
the interaction got.  Python values parsed from JSON are embedded as `PyVal`
(JSON never produces Python float literals with integral semantics usable as
list indices, so non-integer numbers are out of scope of this model).
-/

/-- A Python value as produced by `json.loads` (floats omitted, see above). -/
inductive PyVal where
  | pynone : PyVal
  | pybool : Bool → PyVal
  | pyint : Int → PyVal
  | pystr : String → PyVal
  | pylist : List PyVal → PyVal
  | pydict : List (String × PyVal) → PyVal

/-- Python truthiness, as tested by `if not top_indices`. -/
def truthy : PyVal → Bool
  | PyVal.pynone => false
  | PyVal.pybool b => b
  | PyVal.pyint n => n != 0
  | PyVal.pystr s => !(s == "")
  | PyVal.pylist l => !l.isEmpty
  | PyVal.pydict f => !f.isEmpty

/-- Embeds `d.get(key)` on a Python dict: the value under the first matching key, or
`None` when absent. -/
def dictGet (fields : List (String × PyVal)) (key : String) : PyVal :=
  match fields.find? fun p => p.1 == key with
  | some p => p.2
  | Option.none => PyVal.pynone

/-- Outcome of the network call and JSON decoding, the effectful prefix of
`rank_slots_with_llm`:
* `netError` — `requests.post`, `raise_for_status` or `response.json()` raised
  a `requests.exceptions.RequestException` (connection error, timeout, bad
  HTTP status);
* `badJson` — `json.loads(response_text)` raised `json.JSONDecodeError`;
* `parsed v` — decoding succeeded and `ranked_data = v`. -/
inductive LLMReply where
  | netError : LLMReply
  | badJson : LLMReply
  | parsed : PyVal → LLMReply

/-- The value a `PyVal` contributes to `0 < i <= len(feasible_slots)` and to
`feasible_slots[i-1]`: Python ints are themselves, Python bools are the ints
`1`/`0`, and every other type raises `TypeError` on the comparison. -/
def pyIndexValue : PyVal → Option Int
  | PyVal.pyint n => some n
  | PyVal.pybool b => some (if b then 1 else 0)
  | _ => Option.none

/-- The comprehension
`[feasible_slots[i-1] for i in top_indices if 0 < i <= len(feasible_slots)]`;
`none` models the `TypeError` raised by `0 < i` on a non-numeric entry. -/
def extractRanked (feasible_slots : List Slot) : List PyVal → Option (List Slot)
  | [] => some []
  | v :: rest =>
    match pyIndexValue v with
    | Option.none => Option.none
    | some i =>
      if 0 < i ∧ i ≤ (feasible_slots.length : Int) then
        match feasible_slots.get? (i.toNat - 1), extractRanked feasible_slots rest with
        | some x, some out => some (x :: out)
        | _, _ => Option.none
      else extractRanked feasible_slots rest

/-- Embeds `rank_slots_with_llm(feasible_slots, reason_for_visit)`, given the outcome
`reply` of the LLM interaction (the `reason_for_visit` string only shapes the
prompt, never the post-processing, so it does not appear).  `none` models an
exception escaping the function: its `try` block catches only
`RequestException`, `json.JSONDecodeError` and `KeyError`, so the
`AttributeError` of `ranked_data.get` on a non-dict and the `TypeError` of
`0 < i` on a non-numeric index entry propagate to the caller. -/
def rank_slots_with_llm (feasible_slots : List Slot) (reply : LLMReply) :
    Option (List Slot) :=
  if feasible_slots.isEmpty then some []
  else
    match reply with
    | LLMReply.netError => some feasible_slots
    | LLMReply.badJson => some feasible_slots
    | LLMReply.parsed v =>
      match v with
      | PyVal.pydict fields =>
        let top_indices := dictGet fields "top_3_indices"
        if !truthy top_indices then some feasible_slots
        else
          match top_indices with
          | PyVal.pylist l => extractRanked feasible_slots l
          | _ => some feasible_slots
      | _ => Option.none

/-!
### Enumeration semantics of the CP-SAT model

A satisfying assignment of the model is determined by the set of candidate
literals set to true.  `SelFeasible` states that a selection satisfies every
`AddNoOverlap` constraint: for each vet (resp. room), the fixed busy intervals
together with the intervals of the selected candidates referencing it are
mutually disjoint.
-/

/-- All pairs of intervals in the list are disjoint (one `AddNoOverlap` group). -/
def NoOv (l : List (Nat × Nat)) : Prop :=
  l.Pairwise fun p q => overlapsB p.1 p.2 q.1 q.2 = false

/-- Intervals of the selected candidates that occupy vet `v`'s timeline. -/
def selVetIvals (v : Nat) (sel : List Candidate) : List (Nat × Nat) :=
  (sel.filter fun c => c.v == v).map fun c => (c.s, c.s + appointment_duration)

/-- Intervals of the selected candidates that occupy room `r`'s timeline. -/
def selRoomIvals (r : Nat) (sel : List Candidate) : List (Nat × Nat) :=
  (sel.filter fun c => c.r == r).map fun c => (c.s, c.s + appointment_duration)

/-- The selection `sel` satisfies every no-overlap constraint of the model. -/
def SelFeasible (vet_ids room_ids : List Nat) (appts : List Appointment)
    (sel : List Candidate) : Prop :=
  (∀ v ∈ vet_ids, NoOv (vetFixed v appts ++ selVetIvals v sel)) ∧
  (∀ r ∈ room_ids, NoOv (roomFixed r appts ++ selRoomIvals r sel))

/-- Record `x` occurs in `l` and no record before that occurrence has the same
`(start_time, end_time)` dedup key: `x` is the record that first claims its
time span in the order `l`. -/
def FirstOcc (x : Slot) (l : List Slot) : Prop :=
  ∃ pre post, l = pre ++ x :: post ∧ ∀ y ∈ pre, slotKey y ≠ slotKey x

/-- The replies `rank_slots_with_llm` handles by falling back to the original
list: request failure, undecodable JSON, or a decoded JSON object whose
`top_3_indices` entry is missing/falsy or not a list. -/
def FallbackReply (reply : LLMReply) : Prop :=
  reply = LLMReply.netError ∨ reply = LLMReply.badJson ∨
  ∃ fields, reply = LLMReply.parsed (PyVal.pydict fields) ∧
    (truthy (dictGet fields "top_3_indices") = false ∨
     ∀ l, dictGet fields "top_3_indices" ≠ PyVal.pylist l)

/-!
### The claims

Concrete demonstration data shared by the claim witnesses.
-/

/-- A demonstration date. -/
def demoDate : DateD := ⟨2026, 1, 5⟩

/-- A demonstration vet with id 1. -/
def vet1 : Vet := ⟨1, "Alice Pawson"⟩

/-- A second demonstration vet with id 2. -/
def vet2 : Vet := ⟨2, "Bob Barker"⟩

/-- A demonstration room with id 1. -/
def room1 : Room := ⟨1, "Main Exam Room"⟩

/-- A booking of vet 1 / room 1 from 09:30 to 17:00: it blocks every grid
start except 09:00. -/
def apptBlock : Appointment := ⟨1, 1, 1, 570, 1020⟩

/-- The single slot record the solver returns against `apptBlock`. -/
def slot900 : Slot :=
  ⟨1, "Dr. Pawson 1", 1, "Exam Room 1", "2026-01-05", "09:00", "09:30"⟩

/-- The four slots the solver returns against a 10:00–16:30 booking. -/
def outMid : List Slot :=
  [⟨1, "Dr. Pawson 1", 1, "Exam Room 1", "2026-01-05", "09:00", "09:30"⟩,
   ⟨1, "Dr. Pawson 1", 1, "Exam Room 1", "2026-01-05", "09:15", "09:45"⟩,
   ⟨1, "Dr. Pawson 1", 1, "Exam Room 1", "2026-01-05", "09:30", "10:00"⟩,
   ⟨1, "Dr. Pawson 1", 1, "Exam Room 1", "2026-01-05", "16:30", "17:00"⟩]

/-- A vet-1 booking 10:00–11:00. -/
def apptOv1 : Appointment := ⟨1, 1, 1, 600, 660⟩

/-- A vet-1 booking 10:30–11:30, overlapping `apptOv1` on vet 1 and room 1. -/
def apptOv2 : Appointment := ⟨2, 1, 1, 630, 690⟩

/-!
### Supporting lemmas
-/

theorem charListLe_total : ∀ x y : List Char, charListLe x y = true ∨ charListLe y x = true
  | [], _ => Or.inl rfl
  | _ :: _, [] => Or.inr rfl
  | a :: as, b :: bs => by
    rcases Nat.lt_trichotomy a.toNat b.toNat with h | h | h
    · left; simp [charListLe, h]
    · rcases charListLe_total as bs with ih | ih
      · left; simp [charListLe, h, ih]
      · right; simp [charListLe, h.symm, ih]
    · right; simp [charListLe, h]

theorem charListLe_trans : ∀ x y z : List Char,
    charListLe x y = true → charListLe y z = true → charListLe x z = true
  | [], _, _, _, _ => rfl
  | _ :: _, [], _, h, _ => absurd h (by simp [charListLe])
  | _ :: _, _ :: _, [], _, h => absurd h (by simp [charListLe])
  | a :: as, b :: bs, c :: cs, h1, h2 => by
    simp only [charListLe] at h1 h2 ⊢
    rcases Nat.lt_trichotomy a.toNat b.toNat with hab | hab | hab <;>
      rcases Nat.lt_trichotomy b.toNat c.toNat with hbc | hbc | hbc
    · simp [Nat.lt_trans hab hbc]
    · simp [hbc ▸ hab]
    · simp [Nat.lt_asymm hbc, hbc] at h2
    · simp [hab ▸ hbc]
    · have hac : a.toNat = c.toNat := hab.trans hbc
      simp only [hab, lt_irrefl, if_false] at h1
      simp only [hbc, lt_irrefl, if_false] at h2
      simp [hac, charListLe_trans as bs cs h1 h2]
    · simp [Nat.lt_asymm hbc, hbc] at h2
    · simp [Nat.lt_asymm hab, hab] at h1
    · simp [Nat.lt_asymm hab, hab] at h1
    · simp [Nat.lt_asymm hab, hab] at h1

instance : IsTotal Slot slotLe :=
  ⟨fun a b => charListLe_total a.start_time.data b.start_time.data⟩

instance : IsTrans Slot slotLe :=
  ⟨fun a b c => charListLe_trans a.start_time.data b.start_time.data c.start_time.data⟩

theorem sortSlots_perm (l : List Slot) : (sortSlots l).Perm l :=
  List.perm_insertionSort slotLe l

theorem mem_sortSlots {l : List Slot} {x : Slot} : x ∈ sortSlots l ↔ x ∈ l :=
  (sortSlots_perm l).mem_iff

theorem sortSlots_pairwise (l : List Slot) : (sortSlots l).Pairwise slotLe :=
  List.sorted_insertionSort slotLe l

theorem firstOcc_nil {x : Slot} : ¬ FirstOcc x [] := by
  rintro ⟨pre, post, h, -⟩
  exact absurd h.symm (List.append_ne_nil_of_right_ne_nil pre (List.cons_ne_nil x post))

theorem firstOcc_cons {x a : Slot} {t : List Slot} :
    FirstOcc x (a :: t) ↔ x = a ∨ (slotKey a ≠ slotKey x ∧ FirstOcc x t) := by
  constructor
  · rintro ⟨pre, post, h, hpre⟩
    cases pre with
    | nil =>
      rw [List.nil_append] at h
      exact Or.inl (List.head_eq_of_cons_eq h.symm)
    | cons p pre' =>
      rw [List.cons_append] at h
      have hap : a = p := List.head_eq_of_cons_eq h
      have h' : t = pre' ++ x :: post := List.tail_eq_of_cons_eq h
      subst hap
      exact Or.inr ⟨hpre a (List.mem_cons_self a pre'), pre', post, h',
        fun y hy => hpre y (List.mem_cons_of_mem a hy)⟩
  · rintro (rfl | ⟨hne, pre, post, rfl, hpre⟩)
    · exact ⟨[], t, rfl, by simp⟩
    · exact ⟨a :: pre, post, rfl, by
        intro y hy
        rcases List.mem_cons.mp hy with rfl | hy
        · exact hne
        · exact hpre y hy⟩

theorem firstOcc_mem {x : Slot} {l : List Slot} (h : FirstOcc x l) : x ∈ l := by
  obtain ⟨pre, post, rfl, -⟩ := h
  exact List.mem_append_right pre (List.mem_cons_self x post)

theorem exists_firstOcc_of_mem : ∀ {l : List Slot} {x : Slot}, x ∈ l →
    ∃ x', slotKey x' = slotKey x ∧ FirstOcc x' l := by
  intro l
  induction l with
  | nil => intro x hx; exact absurd hx (List.not_mem_nil x)
  | cons a t ih =>
    intro x hx
    by_cases hk : slotKey a = slotKey x
    · exact ⟨a, hk, ⟨[], t, rfl, by simp⟩⟩
    · rcases List.mem_cons.mp hx with rfl | hx
      · exact absurd rfl hk
      · obtain ⟨x', hx', hfo⟩ := ih hx
        exact ⟨x', hx', firstOcc_cons.mpr (Or.inr ⟨hx' ▸ hk, hfo⟩)⟩

theorem mem_dedupSlots : ∀ (l : List Slot) (seen : List (String × String)) (x : Slot),
    x ∈ dedupSlots l seen ↔ slotKey x ∉ seen ∧ FirstOcc x l := by
  intro l
  induction l with
  | nil => intro seen x; simp [dedupSlots, firstOcc_nil]
  | cons a t ih =>
    intro seen x
    by_cases hs : slotKey a ∈ seen
    · rw [dedupSlots, if_pos hs, ih, firstOcc_cons]
      constructor
      · rintro ⟨hns, hfo⟩
        exact ⟨hns, Or.inr ⟨fun he => hns (he ▸ hs), hfo⟩⟩
      · rintro ⟨hns, rfl | ⟨-, hfo⟩⟩
        · exact absurd hs hns
        · exact ⟨hns, hfo⟩
    · rw [dedupSlots, if_neg hs, List.mem_cons, ih, firstOcc_cons]
      constructor
      · rintro (rfl | ⟨hns, hfo⟩)
        · exact ⟨hs, Or.inl rfl⟩
        · have h1 : slotKey x ≠ slotKey a := fun he => hns (by simp [he])
          exact ⟨fun hc => hns (by simp [hc]), Or.inr ⟨h1.symm, hfo⟩⟩
      · rintro ⟨hns, rfl | ⟨hne, hfo⟩⟩
        · exact Or.inl rfl
        · exact Or.inr ⟨by simp [hne.symm, hns], hfo⟩

theorem dedupSlots_pairwise : ∀ (l : List Slot) (seen : List (String × String)),
    (dedupSlots l seen).Pairwise fun a b => slotKey a ≠ slotKey b := by
  intro l
  induction l with
  | nil => intro seen; simp [dedupSlots]
  | cons a t ih =>
    intro seen
    by_cases hs : slotKey a ∈ seen
    · rw [dedupSlots, if_pos hs]; exact ih seen
    · rw [dedupSlots, if_neg hs]
      refine List.Pairwise.cons ?_ (ih _)
      intro b hb
      have hmem := (mem_dedupSlots t (slotKey a :: seen) b).mp hb
      exact fun he => hmem.1 (by simp [he])

theorem overlapsB_comm (s1 e1 s2 e2 : Nat) :
    overlapsB s1 e1 s2 e2 = overlapsB s2 e2 s1 e1 := by
  simp [overlapsB, Nat.max_comm, Nat.min_comm]

theorem mem_potential_slots {vet_ids room_ids : List Nat} {c : Candidate} :
    c ∈ potential_slots vet_ids room_ids ↔
      c.s ∈ possible_starts ∧ c.v ∈ vet_ids ∧ c.r ∈ room_ids := by
  obtain ⟨v, r, s⟩ := c
  simp only [potential_slots, List.mem_flatMap, List.mem_map]
  constructor
  · rintro ⟨s', hs', v', hv', r', hr', he⟩
    cases he
    exact ⟨hs', hv', hr'⟩
  · rintro ⟨hs, hv, hr⟩
    exact ⟨s, hs, v, hv, r, hr, rfl⟩

theorem candFreeB_iff {appts : List Appointment} {c : Candidate} :
    candFreeB appts c = true ↔
      ∀ a ∈ appts, (a.vet_id = c.v ∨ a.room_id = c.r) →
        overlapsB c.s (c.s + appointment_duration) a.startMin a.endMin = false := by
  simp only [candFreeB, List.all_eq_true, Bool.not_eq_true', Bool.and_eq_false_iff,
    Bool.or_eq_false_iff, beq_eq_false_iff_ne, ne_eq]
  constructor
  · intro h a ha hid
    rcases h a ha with hids | hov
    · rcases hid with h1 | h1
      · exact absurd h1 hids.1
      · exact absurd h1 hids.2
    · exact hov
  · intro h a ha
    by_cases h1 : a.vet_id = c.v
    · exact Or.inr (h a ha (Or.inl h1))
    · by_cases h2 : a.room_id = c.r
      · exact Or.inr (h a ha (Or.inr h2))
      · exact Or.inl ⟨h1, h2⟩

theorem mem_possible_starts {s : Nat} :
    s ∈ possible_starts ↔
      day_start_min ≤ s ∧ s % 15 = 0 ∧ s + appointment_duration ≤ day_end_min := by
  have he : possible_starts = List.range' 540 31 15 := rfl
  rw [he, List.mem_range']
  constructor
  · rintro ⟨i, hi, rfl⟩
    refine ⟨by simp [day_start_min], by omega, ?_⟩
    simp only [appointment_duration, day_end_min]
    omega
  · rintro ⟨h1, h2, h3⟩
    simp only [day_start_min] at h1
    simp only [appointment_duration, day_end_min] at h3
    exact ⟨(s - 540) / 15, by omega, by omega⟩

/-- Everything in `solveCollected` is the record of a conflict-free candidate. -/
theorem mem_solveCollected_elim {d : DateD} {vet_ids room_ids : List Nat}
    {appts : List Appointment} {x : Slot}
    (h : x ∈ solveCollected d vet_ids room_ids appts) :
    ∃ c ∈ potential_slots vet_ids room_ids, candFreeB appts c = true ∧ x = mkSlot d c := by
  rw [solveCollected] at h
  split at h
  · exact absurd h (List.not_mem_nil x)
  split at h
  · simp only [List.mem_map, List.mem_filter] at h
    obtain ⟨c, ⟨hc, hfree⟩, rfl⟩ := h
    exact ⟨c, hc, hfree, rfl⟩
  · exact absurd h (List.not_mem_nil x)

/-- In the good case the callback records exactly the conflict-free candidates. -/
theorem mem_solveCollected_of {d : DateD} {vet_ids room_ids : List Nat}
    {appts : List Appointment} {c : Candidate}
    (hval : ∀ a ∈ appts, a.startMin ≤ a.endMin)
    (hcons : fixedConsistentB vet_ids room_ids appts = true)
    (hc : c ∈ potential_slots vet_ids room_ids) (hfree : candFreeB appts c = true) :
    mkSlot d c ∈ solveCollected d vet_ids room_ids appts := by
  rw [solveCollected, if_neg, if_pos hcons]
  · exact List.mem_map_of_mem (mkSlot d) (List.mem_filter.mpr ⟨hc, hfree⟩)
  · simp only [List.any_eq_true, not_exists, not_and, Bool.not_eq_true]
    intro a ha
    simp only [decide_eq_false_iff_not, not_lt]
    exact hval a ha

theorem pairwiseNoOvB_iff : ∀ {l : List (Nat × Nat)}, pairwiseNoOvB l = true ↔ NoOv l := by
  intro l
  induction l with
  | nil => simp [pairwiseNoOvB, NoOv]
  | cons x xs ih =>
    simp only [pairwiseNoOvB, Bool.and_eq_true, List.all_eq_true, Bool.not_eq_true',
      NoOv, List.pairwise_cons]
    rw [← NoOv, ← ih]

theorem fixedConsistentB_iff {vet_ids room_ids : List Nat} {appts : List Appointment} :
    fixedConsistentB vet_ids room_ids appts = true ↔
      (∀ v ∈ vet_ids, NoOv (vetFixed v appts)) ∧
      (∀ r ∈ room_ids, NoOv (roomFixed r appts)) := by
  simp only [fixedConsistentB, Bool.and_eq_true, List.all_eq_true, pairwiseNoOvB_iff]

/-- The list `solveCollected` is faithful to exhaustive solution enumeration:
a record is collected iff it is the record of a candidate that is selected in
at least one assignment satisfying all no-overlap constraints (provided no
fixed interval has negative size, which would invalidate the model). -/
theorem mem_solveCollected_iff_solution {d : DateD} {vet_ids room_ids : List Nat}
    {appts : List Appointment} {x : Slot}
    (hval : ∀ a ∈ appts, a.startMin ≤ a.endMin) :
    x ∈ solveCollected d vet_ids room_ids appts ↔
      ∃ c ∈ potential_slots vet_ids room_ids, x = mkSlot d c ∧
        ∃ sel, (∀ y ∈ sel, y ∈ potential_slots vet_ids room_ids) ∧
          SelFeasible vet_ids room_ids appts sel ∧ c ∈ sel := by
  constructor
  · intro h
    obtain ⟨c, hc, hfree, rfl⟩ := mem_solveCollected_elim h
    have hcons : fixedConsistentB vet_ids room_ids appts = true := by
      rw [solveCollected] at h
      split at h
      · exact absurd h (List.not_mem_nil _)
      split at h
      · assumption
      · exact absurd h (List.not_mem_nil _)
    rw [fixedConsistentB_iff] at hcons
    rw [candFreeB_iff] at hfree
    refine ⟨c, hc, rfl, [c], by simpa using hc, ⟨?_, ?_⟩, List.mem_singleton_self c⟩
    · intro v hv
      rw [NoOv, List.pairwise_append]
      refine ⟨hcons.1 v hv, ?_, ?_⟩
      · simp only [selVetIvals]
        cases hb : c.v == v <;> simp [List.filter, hb]
      · intro p hp q hq
        simp only [selVetIvals, List.mem_map, List.mem_filter, List.mem_singleton] at hq
        obtain ⟨c', ⟨rfl, hcvv⟩, rfl⟩ := hq
        simp only [vetFixed, List.mem_map, List.mem_filter] at hp
        obtain ⟨a, ⟨ha, hav⟩, rfl⟩ := hp
        rw [overlapsB_comm]
        exact hfree a ha (Or.inl (by rw [beq_iff_eq.mp hav, beq_iff_eq.mp hcvv]))
    · intro r hr
      rw [NoOv, List.pairwise_append]
      refine ⟨hcons.2 r hr, ?_, ?_⟩
      · simp only [selRoomIvals]
        cases hb : c.r == r <;> simp [List.filter, hb]
      · intro p hp q hq
        simp only [selRoomIvals, List.mem_map, List.mem_filter, List.mem_singleton] at hq
        obtain ⟨c', ⟨rfl, hcrr⟩, rfl⟩ := hq
        simp only [roomFixed, List.mem_map, List.mem_filter] at hp
        obtain ⟨a, ⟨ha, har⟩, rfl⟩ := hp
        rw [overlapsB_comm]
        exact hfree a ha (Or.inr (by rw [beq_iff_eq.mp har, beq_iff_eq.mp hcrr]))
  · rintro ⟨c, hc, rfl, sel, hsub, ⟨hfv, hfr⟩, hcsel⟩
    have hpc := mem_potential_slots.mp hc
    have hcons : fixedConsistentB vet_ids room_ids appts = true := by
      rw [fixedConsistentB_iff]
      constructor
      · intro v hv
        have := hfv v hv
        rw [NoOv, List.pairwise_append] at this
        exact this.1
      · intro r hr
        have := hfr r hr
        rw [NoOv, List.pairwise_append] at this
        exact this.1
    refine mem_solveCollected_of hval hcons hc ?_
    rw [candFreeB_iff]
    intro a ha hid
    rcases hid with hid | hid
    · have hnov := hfv c.v hpc.2.1
      rw [NoOv, List.pairwise_append] at hnov
      have hp : (a.startMin, a.endMin) ∈ vetFixed c.v appts := by
        simp only [vetFixed, List.mem_map, List.mem_filter]
        exact ⟨a, ⟨ha, beq_iff_eq.mpr hid⟩, rfl⟩
      have hq : (c.s, c.s + appointment_duration) ∈ selVetIvals c.v sel := by
        simp only [selVetIvals, List.mem_map, List.mem_filter]
        exact ⟨c, ⟨hcsel, beq_iff_eq.mpr rfl⟩, rfl⟩
      have := hnov.2.2 _ hp _ hq
      rw [overlapsB_comm] at this
      exact this
    · have hnov := hfr c.r hpc.2.2
      rw [NoOv, List.pairwise_append] at hnov
      have hp : (a.startMin, a.endMin) ∈ roomFixed c.r appts := by
        simp only [roomFixed, List.mem_map, List.mem_filter]
        exact ⟨a, ⟨ha, beq_iff_eq.mpr hid⟩, rfl⟩
      have hq : (c.s, c.s + appointment_duration) ∈ selRoomIvals c.r sel := by
        simp only [selRoomIvals, List.mem_map, List.mem_filter]
        exact ⟨c, ⟨hcsel, beq_iff_eq.mpr rfl⟩, rfl⟩
      have := hnov.2.2 _ hp _ hq
      rw [overlapsB_comm] at this
      exact this

theorem find_eq_some_iff {d : DateD} {vets : List Vet} {rooms : List Room}
    {appts : List Appointment} {out : List Slot} :
    find_available_slots d vets rooms appts = some out ↔
      (∀ a ∈ appts, a.vet_id ∈ vets.map Vet.id ∧ a.room_id ∈ rooms.map Room.id) ∧
      out = sortSlots (dedupSlots
        (solveCollected d (vets.map Vet.id) (rooms.map Room.id) appts) []) := by
  rw [find_available_slots]
  split_ifs with h
  · simp only [List.all_eq_true, Bool.and_eq_true, List.elem_iff] at h
    simp only [Option.some.injEq]
    constructor
    · intro he
      exact ⟨fun a ha => ⟨(h a ha).1, (h a ha).2⟩, he.symm⟩
    · rintro ⟨-, rfl⟩
      rfl
  · simp only [List.all_eq_true, Bool.and_eq_true, List.elem_iff] at h
    push_neg at h
    constructor
    · intro hfalse
      exact hfalse.elim
    · rintro ⟨hids, -⟩
      obtain ⟨a, ha, hcon⟩ := h
      exact (hcon (hids a ha).1 (hids a ha).2).elim

/-- C3: soundness against existing bookings — every slot record returned by
`find_available_slots` renders a grid start time, and its half-open interval
overlaps no existing appointment whose vet id equals the slot's reported
`vet_id` or whose room id equals the slot's reported `room_id`. -/
theorem C3_returned_slot_never_overlaps_bookings
    (d : DateD) (vets : List Vet) (rooms : List Room) (appts : List Appointment)
    (out : List Slot) (h : find_available_slots d vets rooms appts = some out) :
    ∀ slot ∈ out, ∃ s ∈ possible_starts,
      slot.start_time = fmtHHMM s ∧
      slot.end_time = fmtHHMM (s + appointment_duration) ∧
      ∀ a ∈ appts, (a.vet_id = slot.vet_id ∨ a.room_id = slot.room_id) →
        overlapsB s (s + appointment_duration) a.startMin a.endMin = false := by
  obtain ⟨-, rfl⟩ := find_eq_some_iff.mp h
  intro slot hslot
  rw [mem_sortSlots] at hslot
  have hfo := (mem_dedupSlots _ _ _).mp hslot
  obtain ⟨c, hc, hfree, rfl⟩ := mem_solveCollected_elim (firstOcc_mem hfo.2)
  exact ⟨c.s, (mem_potential_slots.mp hc).1, rfl, rfl, candFreeB_iff.mp hfree⟩

/-- Witness for C3 at a concrete input: with one vet, one room and the
blocking booking `apptBlock`, the returned slot `slot900` satisfies the
soundness property. -/
theorem C3_witness :
    ∃ s ∈ possible_starts,
      slot900.start_time = fmtHHMM s ∧
      slot900.end_time = fmtHHMM (s + appointment_duration) ∧
      ∀ a ∈ [apptBlock], (a.vet_id = slot900.vet_id ∨ a.room_id = slot900.room_id) →
        overlapsB s (s + appointment_duration) a.startMin a.endMin = false :=
  C3_returned_slot_never_overlaps_bookings demoDate [vet1] [room1] [apptBlock]
    [slot900] (by decide) slot900 (by decide)

/-- C2: the spec says the solve operation accepts the requested service length
`durationMinutes` and returns slots of that length; the implementation's
`find_available_slots` has no duration parameter (its caller
`backend/api.py` passes one as a fifth positional argument, which raises
`TypeError` at call time) and hardcodes `appointment_duration = 30`, so every
returned slot spans exactly 30 minutes whatever duration was requested. -/
theorem C2_every_slot_is_thirty_minutes
    (d : DateD) (vets : List Vet) (rooms : List Room) (appts : List Appointment)
    (out : List Slot) (h : find_available_slots d vets rooms appts = some out) :
    appointment_duration = 30 ∧
    ∀ slot ∈ out, ∃ s ∈ possible_starts,
      slot.start_time = fmtHHMM s ∧ slot.end_time = fmtHHMM (s + 30) := by
  refine ⟨rfl, ?_⟩
  obtain ⟨-, rfl⟩ := find_eq_some_iff.mp h
  intro slot hslot
  rw [mem_sortSlots] at hslot
  have hfo := (mem_dedupSlots _ _ _).mp hslot
  obtain ⟨c, hc, -, rfl⟩ := mem_solveCollected_elim (firstOcc_mem hfo.2)
  exact ⟨c.s, (mem_potential_slots.mp hc).1, rfl, rfl⟩

/-- Witness for C2 at a concrete input. -/
theorem C2_witness :
    appointment_duration = 30 ∧
    ∀ slot ∈ [slot900], ∃ s ∈ possible_starts,
      slot.start_time = fmtHHMM s ∧ slot.end_time = fmtHHMM (s + 30) :=
  C2_every_slot_is_thirty_minutes demoDate [vet1] [room1] [apptBlock]
    [slot900] (by decide)

/-- C9: every returned slot reports the hardcoded demonstration names
`"Dr. Pawson {vet_id}"` and `"Exam Room {room_id}"`, and the result ignores
the `name` fields of the `Vet` and `Room` records passed in: any resource
lists with the same ids yield the identical output. -/
theorem C9_hardcoded_demo_names
    (d : DateD) (vets : List Vet) (rooms : List Room) (appts : List Appointment)
    (out : List Slot) (h : find_available_slots d vets rooms appts = some out) :
    (∀ slot ∈ out,
      slot.vet_name = "Dr. Pawson " ++ toString slot.vet_id ∧
      slot.room_name = "Exam Room " ++ toString slot.room_id) ∧
    ∀ (vets2 : List Vet) (rooms2 : List Room),
      vets2.map Vet.id = vets.map Vet.id → rooms2.map Room.id = rooms.map Room.id →
      find_available_slots d vets2 rooms2 appts = some out := by
  constructor
  · obtain ⟨-, rfl⟩ := find_eq_some_iff.mp h
    intro slot hslot
    rw [mem_sortSlots] at hslot
    have hfo := (mem_dedupSlots _ _ _).mp hslot
    obtain ⟨c, -, -, rfl⟩ := mem_solveCollected_elim (firstOcc_mem hfo.2)
    exact ⟨rfl, rfl⟩
  · intro vets2 rooms2 hv hr
    obtain ⟨hids, rfl⟩ := find_eq_some_iff.mp h
    rw [find_eq_some_iff, hv, hr]
    exact ⟨hids, rfl⟩

/-- Witness for C9 at a concrete input: renaming the vet and the room changes
nothing, and the reported names are the hardcoded demo strings. -/
theorem C9_witness :
    (∀ slot ∈ [slot900],
      slot.vet_name = "Dr. Pawson " ++ toString slot.vet_id ∧
      slot.room_name = "Exam Room " ++ toString slot.room_id) ∧
    ∀ (vets2 : List Vet) (rooms2 : List Room),
      vets2.map Vet.id = [vet1].map Vet.id → rooms2.map Room.id = [room1].map Room.id →
      find_available_slots demoDate vets2 rooms2 [apptBlock] = some [slot900] :=
  C9_hardcoded_demo_names demoDate [vet1] [room1] [apptBlock] [slot900] (by decide)

/-- C5 as stated is refuted: with zero staff resources but a booking that
references a vet id absent from the (empty) staff list, the function raises
`KeyError` (modelled as `none`) instead of returning the empty list. -/
theorem C5_counterexample :
    find_available_slots demoDate [] [room1] [⟨1, 1, 1, 600, 630⟩] = none ∧
    (none : Option (List Slot)) ≠ some [] := by
  exact ⟨by decide, by decide⟩

/-- C5 (amended): if the staff list or the location list is empty, and every
existing appointment references a supplied vet id and room id (so the booking
loop raises no `KeyError`; with an empty list this forces no bookings on that
side), `find_available_slots` returns the empty list. -/
theorem C5_empty_resources_amended
    (d : DateD) (vets : List Vet) (rooms : List Room) (appts : List Appointment)
    (hempty : vets = [] ∨ rooms = [])
    (hids : ∀ a ∈ appts, a.vet_id ∈ vets.map Vet.id ∧ a.room_id ∈ rooms.map Room.id) :
    find_available_slots d vets rooms appts = some [] := by
  rw [find_eq_some_iff]
  refine ⟨hids, ?_⟩
  have hpot : potential_slots (vets.map Vet.id) (rooms.map Room.id) = [] := by
    rcases hempty with rfl | rfl <;> simp [potential_slots]
  have hcol : solveCollected d (vets.map Vet.id) (rooms.map Room.id) appts = [] := by
    rw [solveCollected, hpot]
    simp
  rw [hcol]
  rfl

/-- Witness for the amended C5 at a concrete input. -/
theorem C5_witness : find_available_slots demoDate [] [room1] [] = some [] :=
  C5_empty_resources_amended demoDate [] [room1] [] (Or.inl rfl) (by simp)

/-- C6 as stated is refuted: an existing booking whose end (09:30) precedes
its start (10:00) does not make the solve fail with a validation error — the
function returns normally (the inverted interval merely invalidates the CP-SAT
model, so no solution is enumerated and the result is the empty list). -/
theorem C6_counterexample :
    find_available_slots demoDate [vet1] [room1] [⟨1, 1, 1, 600, 570⟩] = some [] ∧
    some [] ≠ (none : Option (List Slot)) := by
  exact ⟨by decide, by decide⟩

/-- C6 (amended): the solve operation performs no interval validation; when
some existing booking has `end < start` (and all bookings reference supplied
resources, so no `KeyError` is raised), the negative-size fixed interval makes
the CP-SAT model invalid and the function silently returns the empty list
rather than raising a validation error. -/
theorem C6_inverted_interval_amended
    (d : DateD) (vets : List Vet) (rooms : List Room) (appts : List Appointment)
    (hids : ∀ a ∈ appts, a.vet_id ∈ vets.map Vet.id ∧ a.room_id ∈ rooms.map Room.id)
    (hbad : ∃ a ∈ appts, a.endMin < a.startMin) :
    find_available_slots d vets rooms appts = some [] := by
  rw [find_eq_some_iff]
  refine ⟨hids, ?_⟩
  have hcol : solveCollected d (vets.map Vet.id) (rooms.map Room.id) appts = [] := by
    rw [solveCollected, if_pos]
    obtain ⟨a, ha, hlt⟩ := hbad
    simp only [List.any_eq_true]
    exact ⟨a, ha, by simpa using hlt⟩
  rw [hcol]
  rfl

/-- Witness for the amended C6 at a concrete input. -/
theorem C6_witness :
    find_available_slots demoDate [vet1] [room1] [⟨1, 1, 1, 600, 570⟩] = some [] :=
  C6_inverted_interval_amended demoDate [vet1] [room1] [⟨1, 1, 1, 600, 570⟩]
    (by decide) ⟨⟨1, 1, 1, 600, 570⟩, by decide, by decide⟩

/-- C4: first-wins dedup — the returned list holds at most one record per
`(start_time, end_time)` pair, and a record is returned precisely when it is
the first record bearing its time-span key in the enumeration-order list
`solveCollected`; later records with the same key are discarded even when
they name a different vet/room pair. -/
theorem C4_first_wins_dedup
    (d : DateD) (vets : List Vet) (rooms : List Room) (appts : List Appointment)
    (out : List Slot) (h : find_available_slots d vets rooms appts = some out) :
    out.Pairwise (fun a b => slotKey a ≠ slotKey b) ∧
    ∀ x, x ∈ out ↔
      FirstOcc x (solveCollected d (vets.map Vet.id) (rooms.map Room.id) appts) := by
  obtain ⟨-, rfl⟩ := find_eq_some_iff.mp h
  constructor
  · exact ((sortSlots_perm _).pairwise_iff fun hne => Ne.symm hne).mpr
      (dedupSlots_pairwise _ _)
  · intro x
    rw [mem_sortSlots, mem_dedupSlots]
    simp [List.not_mem_nil]

/-- Witness for C4 at a concrete input: with two vets sharing one room that is
booked from 09:30 on, both vets are free at 09:00 only, the enumeration
collects a 09:00 record for vet 1 and then one for vet 2 with the same time
span, and only the vet-1 record is returned. -/
theorem C4_witness :
    ([slot900] : List Slot).Pairwise (fun a b => slotKey a ≠ slotKey b) ∧
    ∀ x, x ∈ [slot900] ↔
      FirstOcc x (solveCollected demoDate ([vet1, vet2].map Vet.id)
        ([room1].map Room.id) [apptBlock]) :=
  C4_first_wins_dedup demoDate [vet1, vet2] [room1] [apptBlock]
    [slot900] (by decide)

/-- On the start-time grid, code-point order of the rendered `HH:MM` strings
agrees with numeric order of the underlying minutes. -/
theorem charListLe_fmtHHMM_grid :
    ∀ sa ∈ possible_starts, ∀ sb ∈ possible_starts,
      charListLe (fmtHHMM sa).data (fmtHHMM sb).data = true → sa ≤ sb := by decide

/-- C7: the returned list is sorted ascending by start time — by the
code-point order on the rendered strings that the final `sort` uses, and
chronologically, since every slot's times are the `HH:MM` renderings of a grid
minute and its 30-minute end. -/
theorem C7_output_sorted_by_start_time
    (d : DateD) (vets : List Vet) (rooms : List Room) (appts : List Appointment)
    (out : List Slot) (h : find_available_slots d vets rooms appts = some out) :
    out.Pairwise slotLe ∧
    (∀ slot ∈ out, ∃ s ∈ possible_starts,
      slot.start_time = fmtHHMM s ∧ slot.end_time = fmtHHMM (s + appointment_duration)) ∧
    out.Pairwise (fun x y => ∀ sx ∈ possible_starts, ∀ sy ∈ possible_starts,
      x.start_time = fmtHHMM sx → y.start_time = fmtHHMM sy → sx ≤ sy) := by
  have hrender : ∀ slot ∈ out, ∃ s ∈ possible_starts,
      slot.start_time = fmtHHMM s ∧ slot.end_time = fmtHHMM (s + appointment_duration) := by
    obtain ⟨-, he⟩ := find_eq_some_iff.mp h
    subst he
    intro slot hslot
    rw [mem_sortSlots] at hslot
    have hfo := (mem_dedupSlots _ _ _).mp hslot
    obtain ⟨c, hc, -, rfl⟩ := mem_solveCollected_elim (firstOcc_mem hfo.2)
    exact ⟨c.s, (mem_potential_slots.mp hc).1, rfl, rfl⟩
  have hsorted : out.Pairwise slotLe := by
    obtain ⟨-, he⟩ := find_eq_some_iff.mp h
    subst he
    exact sortSlots_pairwise _
  refine ⟨hsorted, hrender, ?_⟩
  refine hsorted.imp_of_mem ?_
  intro x y hx hy hle sx hsx sy hsy hfx hfy
  refine charListLe_fmtHHMM_grid sx hsx sy hsy ?_
  rw [← hfx, ← hfy]
  exact hle

/-- Witness for C7 at a concrete input: a booking from 10:00 to 16:30 leaves
the starts 09:00, 09:15, 09:30 and 16:30, returned in that order. -/
theorem C7_witness :
    (outMid).Pairwise slotLe ∧
    (∀ slot ∈ outMid, ∃ s ∈ possible_starts,
      slot.start_time = fmtHHMM s ∧ slot.end_time = fmtHHMM (s + appointment_duration)) ∧
    (outMid).Pairwise (fun x y => ∀ sx ∈ possible_starts, ∀ sy ∈ possible_starts,
      x.start_time = fmtHHMM sx → y.start_time = fmtHHMM sy → sx ≤ sy) :=
  C7_output_sorted_by_start_time demoDate [vet1] [room1] [⟨1, 1, 1, 600, 990⟩]
    outMid (by decide)

/-- C1 as stated is refuted: when the day's existing appointments themselves
overlap on a resource (10:00–11:00 and 10:30–11:30, both for vet 1 and room
1), no assignment satisfies the no-overlap constraints, CP-SAT reports the
model infeasible, and `find_available_slots` returns the empty list — even
though the grid start 09:00 is conflict-free for vet 1 and room 1 and the
claim requires the pair (09:00, 09:30) to be returned. -/
theorem C1_counterexample :
    find_available_slots demoDate [vet1] [room1] [apptOv1, apptOv2] = some [] ∧
    540 ∈ possible_starts ∧
    (1 : Nat) ∈ ([vet1].map Vet.id) ∧
    (1 : Nat) ∈ ([room1].map Room.id) ∧
    (∀ a ∈ [apptOv1, apptOv2], a.vet_id = 1 →
      overlapsB 540 (540 + appointment_duration) a.startMin a.endMin = false) ∧
    (∀ a ∈ [apptOv1, apptOv2], a.room_id = 1 →
      overlapsB 540 (540 + appointment_duration) a.startMin a.endMin = false) := by
  exact ⟨by decide, by decide, by decide, by decide, by decide, by decide⟩

/-- C1 (amended): exactness of enumeration holds provided every appointment
references a supplied vet and room (no `KeyError`), no appointment interval is
inverted (no invalid model), and the existing appointments are mutually
non-overlapping on every vet and room (no globally infeasible model).  Then
the `(start_time, end_time)` pairs of the returned list are exactly the
renderings of the pairs `(s, s + 30)` where `s` ranges over the 15-minute grid
from 540 with `s + 30 ≤ 1020` and at least one supplied vet and one supplied
room are free of conflicts with their existing appointments on `[s, s+30)`. -/
theorem C1_exactness_amended
    (d : DateD) (vets : List Vet) (rooms : List Room) (appts : List Appointment)
    (hids : ∀ a ∈ appts, a.vet_id ∈ vets.map Vet.id ∧ a.room_id ∈ rooms.map Room.id)
    (hval : ∀ a ∈ appts, a.startMin ≤ a.endMin)
    (hcons : fixedConsistentB (vets.map Vet.id) (rooms.map Room.id) appts = true) :
    ∃ out, find_available_slots d vets rooms appts = some out ∧
      (∀ s, s ∈ possible_starts ↔
        day_start_min ≤ s ∧ s % 15 = 0 ∧ s + appointment_duration ≤ day_end_min) ∧
      ∀ stS enS,
        (∃ slot ∈ out, slot.start_time = stS ∧ slot.end_time = enS) ↔
        (∃ s ∈ possible_starts, stS = fmtHHMM s ∧ enS = fmtHHMM (s + appointment_duration) ∧
          ∃ v ∈ vets.map Vet.id, ∃ r ∈ rooms.map Room.id,
            (∀ a ∈ appts, a.vet_id = v →
              overlapsB s (s + appointment_duration) a.startMin a.endMin = false) ∧
            (∀ a ∈ appts, a.room_id = r →
              overlapsB s (s + appointment_duration) a.startMin a.endMin = false)) := by
  refine ⟨_, find_eq_some_iff.mpr ⟨hids, rfl⟩, fun s => mem_possible_starts, ?_⟩
  intro stS enS
  constructor
  · rintro ⟨slot, hslot, hst, hen⟩
    rw [mem_sortSlots] at hslot
    have hfo := (mem_dedupSlots _ _ _).mp hslot
    obtain ⟨c, hc, hfree, rfl⟩ := mem_solveCollected_elim (firstOcc_mem hfo.2)
    obtain ⟨hcs, hcv, hcr⟩ := mem_potential_slots.mp hc
    rw [candFreeB_iff] at hfree
    exact ⟨c.s, hcs, hst.symm, hen.symm, c.v, hcv, c.r, hcr,
      fun a ha hv => hfree a ha (Or.inl hv),
      fun a ha hr => hfree a ha (Or.inr hr)⟩
  · rintro ⟨s, hs, rfl, rfl, v, hv, r, hr, hfv, hfr⟩
    have hc : (⟨v, r, s⟩ : Candidate) ∈
        potential_slots (vets.map Vet.id) (rooms.map Room.id) :=
      mem_potential_slots.mpr ⟨hs, hv, hr⟩
    have hfree : candFreeB appts ⟨v, r, s⟩ = true := by
      rw [candFreeB_iff]
      rintro a ha (hid | hid)
      · exact hfv a ha hid
      · exact hfr a ha hid
    have hmem := mem_solveCollected_of (d := d) hval hcons hc hfree
    obtain ⟨x', hkey, hfo⟩ := exists_firstOcc_of_mem hmem
    refine ⟨x', ?_, ?_, ?_⟩
    · rw [mem_sortSlots, mem_dedupSlots]
      exact ⟨List.not_mem_nil _, hfo⟩
    · exact congrArg Prod.fst hkey
    · exact congrArg Prod.snd hkey

/-- Witness for the amended C1 at a concrete input. -/
theorem C1_witness :
    ∃ out, find_available_slots demoDate [vet1] [room1] [apptBlock] = some out ∧
      (∀ s, s ∈ possible_starts ↔
        day_start_min ≤ s ∧ s % 15 = 0 ∧ s + appointment_duration ≤ day_end_min) ∧
      ∀ stS enS,
        (∃ slot ∈ out, slot.start_time = stS ∧ slot.end_time = enS) ↔
        (∃ s ∈ possible_starts, stS = fmtHHMM s ∧ enS = fmtHHMM (s + appointment_duration) ∧
          ∃ v ∈ [vet1].map Vet.id, ∃ r ∈ [room1].map Room.id,
            (∀ a ∈ [apptBlock], a.vet_id = v →
              overlapsB s (s + appointment_duration) a.startMin a.endMin = false) ∧
            (∀ a ∈ [apptBlock], a.room_id = r →
              overlapsB s (s + appointment_duration) a.startMin a.endMin = false)) :=
  C1_exactness_amended demoDate [vet1] [room1] [apptBlock]
    (by decide) (by decide) (by decide)

/-- C8 as stated is refuted: a reply that decodes to
`{"top_3_indices": ["1"]}` does not contain a valid list of indices, yet
`rank_slots_with_llm` does not fall back to the original list — the entry
`"1"` is a truthy list that passes the `isinstance(..., list)` check, and the
comparison `0 < "1"` in the comprehension raises an uncaught `TypeError`
(modelled as `none`). -/
theorem C8_counterexample :
    rank_slots_with_llm [slot900]
      (LLMReply.parsed (PyVal.pydict [("top_3_indices", PyVal.pylist [PyVal.pystr "1"])]))
      = none ∧
    (none : Option (List Slot)) ≠ some [slot900] := by
  exact ⟨by decide, by decide⟩

/-- C8 (amended): for every non-empty slot list, if the LLM call fails
(connection error, timeout or HTTP error), or its response cannot be decoded
as JSON, or it decodes to a JSON object whose `top_3_indices` entry is
missing, falsy or not a list, then `rank_slots_with_llm` returns the original
slot list unchanged.  (A `top_3_indices` list containing non-integer entries,
or a decoded reply that is not a JSON object, instead raises an uncaught
exception — see the counterexample.) -/
theorem C8_fallback_amended (feasible_slots : List Slot) (reply : LLMReply)
    (hne : feasible_slots ≠ []) (hfb : FallbackReply reply) :
    rank_slots_with_llm feasible_slots reply = some feasible_slots := by
  have hne' : feasible_slots.isEmpty = false := by
    cases feasible_slots with
    | nil => exact absurd rfl hne
    | cons a t => rfl
  rcases hfb with rfl | rfl | ⟨fields, rfl, hcond⟩
  · rw [rank_slots_with_llm, hne']
    rfl
  · rw [rank_slots_with_llm, hne']
    rfl
  · rw [rank_slots_with_llm, hne']
    simp only [Bool.false_eq_true, if_false]
    rcases hcond with hf | hnl
    · simp [hf]
    · cases htop : dictGet fields "top_3_indices" with
      | pylist l => exact absurd htop (hnl l)
      | pynone => simp [htop]
      | pybool b => simp [htop]
      | pyint n => simp [htop]
      | pystr s => simp [htop]
      | pydict f => simp [htop]

/-- Witness for the amended C8 at a concrete input: a connection failure
returns the one-slot list unchanged. -/
theorem C8_witness :
    rank_slots_with_llm [slot900] LLMReply.netError = some [slot900] :=
  C8_fallback_amended [slot900] LLMReply.netError (by decide) (Or.inl rfl)

/-- On a list of Python ints the comprehension keeps, in order, the slots at
the in-range 1-based indices and silently drops out-of-range indices. -/
theorem extractRanked_intList (slots : List Slot) :
    ∀ idx : List Int,
      extractRanked slots (idx.map PyVal.pyint) =
        some (idx.filterMap fun i =>
          if 0 < i ∧ i ≤ (slots.length : Int) then slots.get? (i.toNat - 1)
          else Option.none) := by
  intro idx
  induction idx with
  | nil => rfl
  | cons i rest ih =>
    rw [List.map_cons, extractRanked, List.filterMap_cons]
    simp only [pyIndexValue]
    by_cases hcond : 0 < i ∧ i ≤ (slots.length : Int)
    · have hlt : i.toNat - 1 < slots.length := by omega
      rw [if_pos hcond, if_pos hcond, ih, List.get?_eq_get hlt]
    · rw [if_neg hcond, if_neg hcond, ih]

/-- C10: the ranker never fabricates a slot and never raises an out-of-range
indexing error — for every slot list and every list of integer indices the
LLM reply may contain, `rank_slots_with_llm` returns a list (raising nothing),
each of whose elements is an element of the input list; 1-based indices
outside `[1, length]` are silently discarded, as the returned value is exactly
the in-range selection (or the unchanged input when the index list is falsy). -/
theorem C10_ranker_returns_subset (slots : List Slot) (idx : List Int) :
    ∃ out,
      rank_slots_with_llm slots
        (LLMReply.parsed (PyVal.pydict
          [("top_3_indices", PyVal.pylist (idx.map PyVal.pyint))])) = some out ∧
      (∀ x ∈ out, x ∈ slots) ∧
      out = (if idx.isEmpty then slots
             else idx.filterMap fun i =>
               if 0 < i ∧ i ≤ (slots.length : Int) then slots.get? (i.toNat - 1)
               else Option.none) := by
  have hsub : ∀ x ∈ (idx.filterMap fun i =>
      if 0 < i ∧ i ≤ (slots.length : Int) then slots.get? (i.toNat - 1)
      else Option.none), x ∈ slots := by
    intro x hx
    rw [List.mem_filterMap] at hx
    obtain ⟨i, -, hi⟩ := hx
    split at hi
    · exact List.get?_mem hi
    · exact Option.noConfusion hi
  cases hslots : slots.isEmpty with
  | true =>
    have hnil : slots = [] := List.isEmpty_iff.mp hslots
    subst hnil
    refine ⟨[], by rw [rank_slots_with_llm]; rfl, by simp, ?_⟩
    cases idx with
    | nil => rfl
    | cons i rest =>
      simp only [List.isEmpty_cons, if_false, Bool.false_eq_true]
      symm
      rw [List.filterMap_eq_nil_iff]
      intro j hj
      split <;> rfl
  | false =>
    cases idx with
    | nil =>
      refine ⟨slots, ?_, fun x hx => hx, rfl⟩
      rw [rank_slots_with_llm, hslots]
      rfl
    | cons i rest =>
      refine ⟨_, ?_, hsub, by simp⟩
      rw [rank_slots_with_llm, hslots]
      simp only [Bool.false_eq_true, if_false]
      have htr : truthy (dictGet [("top_3_indices",
          PyVal.pylist ((i :: rest).map PyVal.pyint))] "top_3_indices") = true := by
        simp [dictGet, truthy]
      rw [show dictGet [("top_3_indices", PyVal.pylist ((i :: rest).map PyVal.pyint))]
          "top_3_indices" = PyVal.pylist ((i :: rest).map PyVal.pyint) from rfl]
      simp only [truthy, List.map_cons, List.isEmpty_cons, Bool.not_false, if_true]
      exact extractRanked_intList slots (i :: rest)
